import Mathlib

/-!
Verification of `util/update_lints.py` (rust-clippy documentation updater).

The script is a linear scan-extract-replace pipeline over text files:

* `collect` extracts lint records `(module, name, level, desc)` from source
  files via the regex `declare_lint_re`;
* `gen_table` / `gen_group` render the collected records as a Markdown table
  resp. a registration-list fragment;
* `replace_region` splices freshly rendered content into a line-delimited
  region of a target file;
* `main` composes the three region replacements and implements the
  `-n` (print-only) and `-c` (check) modes.

The embedding below is shallow: file contents are `List String` (one entry
per line, as produced by Python's line iteration), regex line patterns are
the corresponding decidable `String → Bool` matchers, Python's lazy
generators are the finite `List String` they yield, and the `ValueError`
raised by `max()` on an empty sequence is `Option.none`.  Python's `sorted`
is a stable sort with respect to the comparator; the insertion sort `isort`
below is likewise stable, so the two agree on every input.  Strings are
compared the way Python compares them, lexicographically by code point
(`cmpChar`/`lexCmp`), and tuples lexicographically component by component
(`cmpLint`).
-/

/-- Comparison of two characters by code point, exactly as Python compares
the characters of a string. -/
def cmpChar (x y : Char) : Ordering :=
  if x < y then .lt else if y < x then .gt else .eq

/-- Lexicographic comparison of two lists given a comparison on elements.
With `base := cmpChar` this is Python's string comparison (on `.data`);
applied a second time it is Python's comparison of tuples of strings. -/
def lexCmp (base : α → α → Ordering) : List α → List α → Ordering
  | [], [] => .eq
  | [], _ :: _ => .lt
  | _ :: _, [] => .gt
  | x :: xs, y :: ys =>
    match base x y with
    | .eq => lexCmp base xs ys
    | .lt => .lt
    | .gt => .gt

/-- Python string comparison: lexicographic on the code points. -/
def cmpStr (a b : String) : Ordering := lexCmp cmpChar a.data b.data

/-- One extracted lint declaration, `(module, name, level, desc)` in the
order the Python tuple stores the four strings. -/
structure Lint where
  module : String
  name : String
  level : String
  desc : String
deriving DecidableEq

/-- The tuple underlying a `Lint`, as a list of code-point lists; Python
compares the 4-tuples of strings exactly like `lexCmp (lexCmp cmpChar)`
on these keys. -/
def lintKey (l : Lint) : List (List Char) :=
  [l.module.data, l.name.data, l.level.data, l.desc.data]

/-- Python tuple comparison on whole records, used by `sorted(lints)`. -/
def cmpLint (a b : Lint) : Ordering :=
  lexCmp (lexCmp cmpChar) (lintKey a) (lintKey b)

/-- Boolean order used by `sorted(lints)` in `gen_group`: full-tuple
less-or-equal. -/
def lint_le (a b : Lint) : Bool := decide (cmpLint a b ≠ .gt)

/-- Boolean order used by `sorted(lints, key=lambda l: l[1])` in
`gen_table`: less-or-equal on the `name` field only. -/
def name_le (a b : Lint) : Bool := decide (cmpStr a.name b.name ≠ .gt)

/-- Insert an element into a sorted list, before the first element it is
`le` to; together with `isort` this is a stable sort, which is how
Python's `sorted` orders elements with equal keys. -/
def insert_le (le : α → α → Bool) (a : α) : List α → List α
  | [] => [a]
  | b :: bs => if le a b then a :: b :: bs else b :: insert_le le a bs

/-- Stable insertion sort with respect to a boolean comparator; models
Python's `sorted` with the corresponding key. -/
def isort (le : α → α → Bool) : List α → List α
  | [] => []
  | a :: as => insert_le le a (isort le as)

/-- Python's ASCII lowercasing of a string, `str.lower()`, on the
characters of the string (the script only lowercases ASCII captures). -/
def pyLower (s : String) : String := String.mk (s.data.map Char.toLower)

/-- Python's ASCII uppercasing of a string, `str.upper()`. -/
def pyUpper (s : String) : String := String.mk (s.data.map Char.toUpper)

/-- Left-justified padding `'%-*s' % (w, s)`: the string followed by
spaces up to width `w` (never truncates). -/
def padr (s : String) (w : Nat) : String :=
  s ++ String.mk (List.replicate (w - s.length) ' ')

/-- Right-justified padding (spaces on the left).  This is NOT what the
script does; it is only used to state claim C5 literally, which speaks of
fields being \"left-padded\". -/
def padl (s : String) (w : Nat) : String :=
  String.mk (List.replicate (w - s.length) ' ') ++ s

/-- A run of `n` dashes, `'-' * n`. -/
def dashes (n : Nat) : String := String.mk (List.replicate n '-')

/-- The lines yielded by `gen_table(lints)`: header, dash underline, then
one row per lint sorted ascending by name.  Column widths are the maximum
name length and the maximum description length; `max()` of an empty
sequence raises `ValueError` in Python, modelled by `none` (the generator
raises on first consumption, before yielding any line). -/
def gen_table (lints : List Lint) : Option (List String) :=
  match (lints.map fun l => l.name.length).max?,
        (lints.map fun l => l.desc.length).max? with
  | some w_name, some w_desc =>
    some ((padr "name" w_name ++ " | default | meaning\n")
      :: (dashes w_name ++ "-|-" ++ dashes 7 ++ "-|-" ++ dashes w_desc ++ "\n")
      :: (isort name_le lints).map fun l =>
           padr l.name w_name ++ " | " ++ padr l.level 7 ++ " | " ++ l.desc ++ "\n")
  | _, _ => none

/-- The lines yielded by `gen_group(lints)`: one `        module::NAME,`
line per record, sorted ascending by the full `(module, name, level,
desc)` tuple. -/
def gen_group (lints : List Lint) : List String :=
  (isort lint_le lints).map fun l =>
    "        " ++ l.module ++ "::" ++ pyUpper l.name ++ ",\n"

/-- The line-scanning loop of `replace_region`: the `Bool` argument is the
`in_old_region` flag.  Outside the region a line matching `region_start`
flips the flag and is kept only when `replace_start` is false; inside the
region every line is dropped until one matches `region_end`, at which
point the callback lines and then the end line itself are appended. -/
def rr_go (region_start region_end : String → Bool) (callback : List String)
    (replace_start : Bool) : Bool → List String → List String
  | _, [] => []
  | true, line :: rest =>
    if region_end line then
      callback ++ line :: rr_go region_start region_end callback replace_start false rest
    else
      rr_go region_start region_end callback replace_start true rest
  | false, line :: rest =>
    if region_start line then
      (if replace_start then [] else [line])
        ++ rr_go region_start region_end callback replace_start true rest
    else
      line :: rr_go region_start region_end callback replace_start false rest

/-- The pure core of `replace_region`: from the file's lines compute the
new lines and the `lines != new_lines` boolean the function returns.  The
regex patterns are embedded as the boolean line matchers they compute, and
the callback as the (finite) list of lines its generator yields. -/
def replace_region (region_start region_end : String → Bool)
    (callback : List String) (replace_start : Bool)
    (lines : List String) : List String × Bool :=
  let new_lines := rr_go region_start region_end callback replace_start false lines
  (new_lines, decide (lines ≠ new_lines))

/-- The file-level effect of `replace_region`: the first component is the
content of the file after the call (rewritten only when `write_back` is
true), the second the returned change flag. -/
def replace_region_write (region_start region_end : String → Bool)
    (callback : List String) (replace_start write_back : Bool)
    (content : List String) : List String × Bool :=
  let r := replace_region region_start region_end callback replace_start content
  (if write_back then r.1 else content, r.2)

/-- Matcher of `re.search(r'^name +\|', line)`: the line starts with
`name`, then one or more spaces, then a pipe. -/
def matchTableStart (line : String) : Bool :=
  let cs := line.data
  ("name ".data).isPrefixOf cs
    && (match (cs.drop 4).dropWhile (fun c => c = ' ') with
        | '|' :: _ => true
        | _ => false)

/-- Matcher of `re.search('^$', line)` on a single line read by Python:
true exactly for the empty line (end of file without newline) and the
bare newline line. -/
def matchBlank (line : String) : Bool := line == "" || line == "\n"

/-- Matcher of `re.search(r'^There are \d+ lints included in this crate:',
line)`. -/
def matchCountStart (line : String) : Bool :=
  let cs := line.data
  if ("There are ".data).isPrefixOf cs then
    let r := cs.drop 10
    let ds := r.takeWhile fun c => c.isDigit
    !ds.isEmpty && (" lints included in this crate:".data).isPrefixOf (r.drop ds.length)
  else false

/-- Matcher of `re.search("", line)`: the empty pattern matches every
line immediately. -/
def matchAny (_ : String) : Bool := true

/-- Whether `reg.register_lint_group\("clippy"` matches at the head of the
character list; the unescaped `.` of the regex matches any character
except a newline. -/
def groupStartAt (cs : List Char) : Bool :=
  match cs with
  | 'r' :: 'e' :: 'g' :: c :: rest =>
    c ≠ '\n' && ("register_lint_group(\"clippy\"".data).isPrefixOf rest
  | _ => false

/-- Unanchored search: does `p` hold of some suffix (i.e. does the pattern
match at some start position)? -/
def anySuffix (p : List Char → Bool) : List Char → Bool
  | [] => p []
  | c :: rest => p (c :: rest) || anySuffix p rest

/-- Matcher of `re.search(r'reg.register_lint_group\("clippy"', line)`. -/
def matchGroupStart (line : String) : Bool := anySuffix groupStartAt line.data

/-- Matcher of `re.search(r'\]\);', line)`: the line contains `]);`. -/
def matchGroupEnd (line : String) : Bool :=
  anySuffix (fun cs => ("]);".data).isPrefixOf cs) line.data

/-- The `There are %d lints included in this crate:` line emitted by the
second replacement in `main`. -/
def countLine (lints : List Lint) : String :=
  "There are " ++ toString lints.length ++ " lints included in this crate:\n"

/-- Severity keyword as captured by the regex alternation
`(?P<level>Forbid|Deny|Warn|Allow)`: the pattern makes these four
capitalised keywords the only possible captures. -/
inductive LevelTok where
  | Forbid
  | Deny
  | Warn
  | Allow
deriving DecidableEq

/-- The captured text of a `LevelTok`. -/
def levelStr : LevelTok → String
  | .Forbid => "Forbid"
  | .Deny => "Deny"
  | .Warn => "Warn"
  | .Allow => "Allow"

/-- One match of `declare_lint_re`: the three captured groups.  `name` is
captured from `[A-Z_]+`, `level` from the four-keyword alternation, and
`desc` is the raw text between the quotes (it may contain escapes and raw
newlines, since the regex is compiled with `re.S`). -/
structure RawMatch where
  name : String
  level : LevelTok
  desc : List Char
deriving DecidableEq

/-- Python's `\s` on the ASCII range: space, tab, newline, carriage return,
vertical tab, form feed. -/
def isPySpace (c : Char) : Bool :=
  c = ' ' || c = '\t' || c = '\n' || c = '\r' || c = '\x0b' || c = '\x0c'

/-- Worker for `nl_escape_re.sub('', desc)`.  The flag records that a
`\`-newline match was just consumed and its trailing `\s*` run is still
being skipped (the `\s*` of the regex is greedy, so all following
whitespace belongs to the match). -/
def nlSubGo : Bool → List Char → List Char
  | _, [] => []
  | _, '\\' :: '\n' :: rest => nlSubGo true rest
  | skip, c :: rest =>
    if skip && isPySpace c then nlSubGo true rest else c :: nlSubGo false rest

/-- Removal of the backslash-newline-whitespace escapes from a captured
description: `nl_escape_re.sub('', desc)` with
`nl_escape_re = re.compile(r'\\\n\s*')`. -/
def nl_escape_sub (cs : List Char) : List Char := nlSubGo false cs

/-- Python `desc.replace('\\"', '"')`: left-to-right, non-overlapping
replacement of every escaped quote by a literal quote. -/
def replaceEscQuote : List Char → List Char
  | '\\' :: '"' :: rest => '"' :: replaceEscQuote rest
  | c :: rest => c :: replaceEscQuote rest
  | [] => []

/-- POSIX `os.path.basename`: the part of the path after the last slash. -/
def pyBasename (fn : String) : List Char :=
  ((fn.data.reverse.takeWhile fun c => c ≠ '/').reverse)

/-- The root part of `os.path.splitext` applied to a basename: strip the
suffix starting at the last dot, except that dots leading the basename do
not begin an extension. -/
def splitextRoot (bs : List Char) : List Char :=
  let lead := bs.takeWhile fun c => c = '.'
  let rest := bs.drop lead.length
  if rest.contains '.' then
    lead ++ ((rest.reverse.dropWhile fun c => c ≠ '.').drop 1).reverse
  else bs

/-- `os.path.splitext(os.path.basename(fn))[0]`, the module name derived
from the scanned file's path. -/
def moduleOf (fn : String) : String := String.mk (splitextRoot (pyBasename fn))

/-- The record `collect` appends for one regex match: module from the file
name, lowercased name, lowercased severity keyword, and the description
with backslash-newline escapes removed and escaped quotes unescaped. -/
def mkLint (fn : String) (m : RawMatch) : Lint :=
  { module := moduleOf fn
    name := pyLower m.name
    level := pyLower (levelStr m.level)
    desc := String.mk (replaceEscQuote (nl_escape_sub m.desc)) }

/-- `collect(lints, fn)`: append one record per match of `declare_lint_re`
in the file, in match order. -/
def collect (lints : List Lint) (fn : String) (ms : List RawMatch) : List Lint :=
  lints ++ ms.map (mkLint fn)

/-- The collection loop of `main`: fold `collect` over the visited files
(each given with the matches found in its text), starting from the empty
list. -/
def collect_run (files : List (String × List RawMatch)) : List Lint :=
  files.foldl (fun acc f => collect acc f.1 f.2) []

/-- The pipeline of `main(print_only, check)` after the collection walk,
over explicit state: `has_lib_rs` tells whether the marker file
`src/lib.rs` exists, `lints` is the collected list, `readme` and `librs`
are the current lines of `README.md` and `src/lib.rs`.  The result is
`none` when the run dies with an uncaught exception (the `ValueError` of
`max()` on an empty collection, raised when the table generator is
consumed), and otherwise carries the final lines of the two files and the
value `main` returns (`none` models Python's implicit `None`).  Output to
stdout is not modelled. -/
def main_model (print_only check has_lib_rs : Bool) (lints : List Lint)
    (readme librs : List String) :
    Option (List String × List String × Option Nat) :=
  if !has_lib_rs then some (readme, librs, none)
  else if print_only then some (readme, librs, none)
  else
    match gen_table lints with
    | none => none
    | some tbl =>
      let r1 := replace_region_write matchTableStart matchBlank tbl true (!check) readme
      let r2 := replace_region_write matchCountStart matchAny [countLine lints] true (!check) r1.1
      let r3 := replace_region_write matchGroupStart matchGroupEnd (gen_group lints) false (!check) librs
      some (r2.1, r3.1, if check && (r1.2 || r2.2 || r3.2) then some 1 else none)

/-- The process exit status produced by `sys.exit(main(...))`: Python
treats `None` as success (0) and an integer as itself. -/
def exitOf : Option Nat → Nat
  | none => 0
  | some n => n

/-- Claim C5 rendered literally: the same table but with every padded
field \"left-padded\" (spaces on the left).  Used only to exhibit that the
script pads on the right instead. -/
def gen_table_claim_left_pad (lints : List Lint) : Option (List String) :=
  match (lints.map fun l => l.name.length).max?,
        (lints.map fun l => l.desc.length).max? with
  | some w_name, some w_desc =>
    some ((padl "name" w_name ++ " | default | meaning\n")
      :: (dashes w_name ++ "-|-" ++ dashes 7 ++ "-|-" ++ dashes w_desc ++ "\n")
      :: (isort name_le lints).map fun l =>
           padl l.name w_name ++ " | " ++ padl l.level 7 ++ " | " ++ l.desc ++ "\n")
  | _, _ => none

/-! Basic laws of the code-point comparison, of the generic lexicographic
comparison, and of the stable insertion sort. -/

theorem cmpChar_eq_iff (x y : Char) : cmpChar x y = .eq ↔ x = y := by
  unfold cmpChar
  split_ifs with h1 h2
  · constructor
    · intro h; exact absurd h (by decide)
    · intro h; subst h; exact absurd h1 (lt_irrefl x)
  · constructor
    · intro h; exact absurd h (by decide)
    · intro h; subst h; exact absurd h2 (lt_irrefl x)
  · constructor
    · intro _; exact le_antisymm (not_lt.mp h2) (not_lt.mp h1)
    · intro _; rfl

theorem cmpChar_lt_iff (x y : Char) : cmpChar x y = .lt ↔ x < y := by
  unfold cmpChar
  split_ifs with h1 h2
  · simp [h1]
  · constructor
    · intro h; exact absurd h (by decide)
    · intro h; exact absurd h h1
  · constructor
    · intro h; exact absurd h (by decide)
    · intro h; exact absurd h h1

theorem cmpChar_gt_iff (x y : Char) : cmpChar x y = .gt ↔ y < x := by
  unfold cmpChar
  split_ifs with h1 h2
  · constructor
    · intro h; exact absurd h (by decide)
    · intro h; exact absurd h1 (lt_asymm h)
  · simp [h2]
  · constructor
    · intro h; exact absurd h (by decide)
    · intro h; exact absurd h h2

theorem cmpChar_gt_iff_lt (x y : Char) : cmpChar x y = .gt ↔ cmpChar y x = .lt := by
  rw [cmpChar_gt_iff, cmpChar_lt_iff]

theorem cmpChar_lt_trans {x y z : Char} (h1 : cmpChar x y = .lt) (h2 : cmpChar y z = .lt) :
    cmpChar x z = .lt := by
  rw [cmpChar_lt_iff] at h1 h2 ⊢
  exact lt_trans h1 h2

theorem lexCmp_eq_iff {α : Type} {base : α → α → Ordering}
    (hbase : ∀ x y, base x y = .eq ↔ x = y) :
    ∀ a b : List α, lexCmp base a b = .eq ↔ a = b := by
  intro a
  induction a with
  | nil => intro b; cases b <;> simp [lexCmp]
  | cons x xs ih =>
    intro b
    cases b with
    | nil => simp [lexCmp]
    | cons y ys =>
      simp only [lexCmp]
      cases hxy : base x y with
      | eq =>
        have hx : x = y := (hbase x y).mp hxy
        subst hx
        simp [ih ys]
      | lt =>
        constructor
        · intro h; exact Ordering.noConfusion h
        · intro h
          have : x = y := (List.cons.injEq x xs y ys ▸ h).1
          rw [(hbase x y).mpr this] at hxy
          exact Ordering.noConfusion hxy
      | gt =>
        constructor
        · intro h; exact Ordering.noConfusion h
        · intro h
          have : x = y := (List.cons.injEq x xs y ys ▸ h).1
          rw [(hbase x y).mpr this] at hxy
          exact Ordering.noConfusion hxy

theorem lexCmp_gt_iff_lt {α : Type} {base : α → α → Ordering}
    (hbase_eq : ∀ x y, base x y = .eq ↔ x = y)
    (hbase_gt : ∀ x y, base x y = .gt ↔ base y x = .lt) :
    ∀ a b : List α, lexCmp base a b = .gt ↔ lexCmp base b a = .lt := by
  intro a
  induction a with
  | nil =>
    intro b
    cases b <;> simp [lexCmp]
  | cons x xs ih =>
    intro b
    cases b with
    | nil => simp [lexCmp]
    | cons y ys =>
      simp only [lexCmp]
      cases hxy : base x y with
      | eq =>
        have hx : x = y := (hbase_eq x y).mp hxy
        subst hx
        rw [(hbase_eq x x).mpr rfl]
        exact ih ys
      | lt =>
        have hyx : base y x = .gt := by
          rw [hbase_gt y x]; exact hxy
        rw [hyx]
        simp
      | gt =>
        have hyx : base y x = .lt := (hbase_gt x y).mp hxy
        rw [hyx]
        simp

theorem lexCmp_lt_trans {α : Type} {base : α → α → Ordering}
    (hbase_eq : ∀ x y, base x y = .eq ↔ x = y)
    (hbase_lt : ∀ x y z, base x y = .lt → base y z = .lt → base x z = .lt) :
    ∀ a b c : List α, lexCmp base a b = .lt → lexCmp base b c = .lt →
      lexCmp base a c = .lt := by
  intro a
  induction a with
  | nil =>
    intro b c h1 h2
    cases b with
    | nil => exact h2
    | cons y ys =>
      cases c with
      | nil => exact absurd h2 (by simp [lexCmp])
      | cons z zs => simp [lexCmp]
  | cons x xs ih =>
    intro b c h1 h2
    cases b with
    | nil => exact absurd h1 (by simp [lexCmp])
    | cons y ys =>
      cases c with
      | nil => exact absurd h2 (by simp [lexCmp])
      | cons z zs =>
        simp only [lexCmp] at h1 h2 ⊢
        cases hxy : base x y with
        | eq =>
          have hx : x = y := (hbase_eq x y).mp hxy
          subst hx
          rw [hxy] at h1
          cases hyz : base x z with
          | eq =>
            rw [hyz] at h2
            exact ih ys zs h1 h2
          | lt => rfl
          | gt => rw [hyz] at h2; exact Ordering.noConfusion h2
        | lt =>
          cases hyz : base y z with
          | eq =>
            have hy : y = z := (hbase_eq y z).mp hyz
            subst hy
            rw [hxy]
          | lt => rw [hbase_lt x y z hxy hyz]
          | gt => rw [hyz] at h2; exact Ordering.noConfusion h2
        | gt => rw [hxy] at h1; exact Ordering.noConfusion h1

theorem string_data_inj {a b : String} (h : a.data = b.data) : a = b := by
  cases a; cases b; simp at h; rw [h]

theorem cmpStr_eq_iff (a b : String) : cmpStr a b = .eq ↔ a = b := by
  unfold cmpStr
  rw [lexCmp_eq_iff cmpChar_eq_iff]
  exact ⟨string_data_inj, fun h => h ▸ rfl⟩

theorem cmpStr_gt_iff_lt (a b : String) : cmpStr a b = .gt ↔ cmpStr b a = .lt :=
  lexCmp_gt_iff_lt cmpChar_eq_iff cmpChar_gt_iff_lt a.data b.data

theorem cmpStr_lt_trans {a b c : String} (h1 : cmpStr a b = .lt) (h2 : cmpStr b c = .lt) :
    cmpStr a c = .lt :=
  lexCmp_lt_trans cmpChar_eq_iff (fun _ _ _ => cmpChar_lt_trans) a.data b.data c.data h1 h2

theorem charListCmp_eq_iff (a b : List Char) : lexCmp cmpChar a b = .eq ↔ a = b :=
  lexCmp_eq_iff cmpChar_eq_iff a b

theorem charListCmp_gt_iff_lt (a b : List Char) :
    lexCmp cmpChar a b = .gt ↔ lexCmp cmpChar b a = .lt :=
  lexCmp_gt_iff_lt cmpChar_eq_iff cmpChar_gt_iff_lt a b

theorem lintKey_inj {a b : Lint} (h : lintKey a = lintKey b) : a = b := by
  cases a; cases b
  simp only [lintKey, List.cons.injEq, and_true] at h
  obtain ⟨h1, h2, h3, h4⟩ := h
  simp only [Lint.mk.injEq]
  exact ⟨string_data_inj h1, string_data_inj h2, string_data_inj h3, string_data_inj h4⟩

theorem cmpLint_eq_iff (a b : Lint) : cmpLint a b = .eq ↔ a = b := by
  unfold cmpLint
  rw [lexCmp_eq_iff charListCmp_eq_iff]
  exact ⟨lintKey_inj, fun h => h ▸ rfl⟩

theorem cmpLint_gt_iff_lt (a b : Lint) : cmpLint a b = .gt ↔ cmpLint b a = .lt :=
  lexCmp_gt_iff_lt charListCmp_eq_iff charListCmp_gt_iff_lt (lintKey a) (lintKey b)

theorem cmpLint_lt_trans {a b c : Lint} (h1 : cmpLint a b = .lt) (h2 : cmpLint b c = .lt) :
    cmpLint a c = .lt :=
  lexCmp_lt_trans charListCmp_eq_iff
    (fun x y z => lexCmp_lt_trans cmpChar_eq_iff (fun _ _ _ => cmpChar_lt_trans) x y z)
    (lintKey a) (lintKey b) (lintKey c) h1 h2

theorem lint_le_total (a b : Lint) : lint_le a b = true ∨ lint_le b a = true := by
  unfold lint_le
  by_cases h : cmpLint a b = .gt
  · right
    have : cmpLint b a = .lt := (cmpLint_gt_iff_lt a b).mp h
    simp [this]
  · left; simp [h]

theorem lint_le_trans {a b c : Lint} (h1 : lint_le a b = true) (h2 : lint_le b c = true) :
    lint_le a c = true := by
  unfold lint_le at h1 h2 ⊢
  rw [decide_eq_true_eq] at h1 h2 ⊢
  cases hab : cmpLint a b with
  | gt => exact absurd hab h1
  | eq =>
    have : a = b := (cmpLint_eq_iff a b).mp hab
    subst this
    exact h2
  | lt =>
    cases hbc : cmpLint b c with
    | gt => exact absurd hbc h2
    | eq =>
      have : b = c := (cmpLint_eq_iff b c).mp hbc
      subst this
      simp [hab]
    | lt => simp [cmpLint_lt_trans hab hbc]

theorem name_le_total (a b : Lint) : name_le a b = true ∨ name_le b a = true := by
  unfold name_le
  by_cases h : cmpStr a.name b.name = .gt
  · right
    have : cmpStr b.name a.name = .lt := (cmpStr_gt_iff_lt a.name b.name).mp h
    simp [this]
  · left; simp [h]

theorem name_le_trans {a b c : Lint} (h1 : name_le a b = true) (h2 : name_le b c = true) :
    name_le a c = true := by
  unfold name_le at h1 h2 ⊢
  rw [decide_eq_true_eq] at h1 h2 ⊢
  cases hab : cmpStr a.name b.name with
  | gt => exact absurd hab h1
  | eq =>
    have : a.name = b.name := (cmpStr_eq_iff a.name b.name).mp hab
    rw [show cmpStr a.name c.name = cmpStr b.name c.name from this ▸ rfl]
    exact h2
  | lt =>
    cases hbc : cmpStr b.name c.name with
    | gt => exact absurd hbc h2
    | eq =>
      have : b.name = c.name := (cmpStr_eq_iff b.name c.name).mp hbc
      rw [show cmpStr a.name c.name = cmpStr a.name b.name from this ▸ rfl]
      simp [hab]
    | lt => simp [cmpStr_lt_trans hab hbc]

/-! Permutation and sortedness of the stable insertion sort. -/

theorem insert_le_perm {α : Type} (le : α → α → Bool) (a : α) (l : List α) :
    (insert_le le a l).Perm (a :: l) := by
  induction l with
  | nil => exact List.Perm.refl [a]
  | cons b bs ih =>
    unfold insert_le
    split_ifs
    · exact List.Perm.refl _
    · exact (ih.cons b).trans (List.Perm.swap a b bs)

theorem isort_perm {α : Type} (le : α → α → Bool) (l : List α) :
    (isort le l).Perm l := by
  induction l with
  | nil => exact List.Perm.refl []
  | cons a as ih => exact (insert_le_perm le a (isort le as)).trans (ih.cons a)

theorem mem_insert_le {α : Type} {le : α → α → Bool} {x a : α} {l : List α} :
    x ∈ insert_le le a l ↔ x = a ∨ x ∈ l := by
  rw [(insert_le_perm le a l).mem_iff]
  simp

theorem pairwise_insert_le {α : Type} {le : α → α → Bool}
    (htot : ∀ a b, le a b = true ∨ le b a = true)
    (htrans : ∀ a b c, le a b = true → le b c = true → le a c = true)
    (a : α) {l : List α} (h : l.Pairwise fun x y => le x y = true) :
    (insert_le le a l).Pairwise fun x y => le x y = true := by
  induction l with
  | nil => simp [insert_le]
  | cons b bs ih =>
    obtain ⟨hb, hbs⟩ := List.pairwise_cons.mp h
    unfold insert_le
    split_ifs with hab
    · refine List.Pairwise.cons ?_ h
      intro y hy
      rcases List.mem_cons.mp hy with hyb | hybs
      · subst hyb; exact hab
      · exact htrans a b y hab (hb y hybs)
    · have hba : le b a = true := (htot a b).resolve_left hab
      refine List.Pairwise.cons ?_ (ih hbs)
      intro y hy
      rcases mem_insert_le.mp hy with hya | hybs
      · subst hya; exact hba
      · exact hb y hybs

theorem pairwise_isort {α : Type} {le : α → α → Bool}
    (htot : ∀ a b, le a b = true ∨ le b a = true)
    (htrans : ∀ a b c, le a b = true → le b c = true → le a c = true)
    (l : List α) : (isort le l).Pairwise fun x y => le x y = true := by
  induction l with
  | nil => exact List.Pairwise.nil
  | cons a as ih => exact pairwise_insert_le htot htrans a ih

/-! Behaviour of the `replace_region` scanning loop on structured input. -/

theorem rr_go_nil (sp ep : String → Bool) (cb : List String) (rs b : Bool) :
    rr_go sp ep cb rs b [] = [] := by
  cases b <;> rfl

theorem rr_go_outside_append (sp ep : String → Bool) (cb : List String) (rs : Bool)
    {pre : List String} (xs : List String) (hpre : ∀ l ∈ pre, sp l = false) :
    rr_go sp ep cb rs false (pre ++ xs) = pre ++ rr_go sp ep cb rs false xs := by
  induction pre with
  | nil => rfl
  | cons p ps ih =>
    have hp : sp p = false := hpre p (List.mem_cons_self p ps)
    have ih2 := ih fun l hl => hpre l (List.mem_cons_of_mem p hl)
    simp only [List.cons_append, rr_go, hp, Bool.false_eq_true, if_false,
      List.append_eq] at ih2 ⊢
    rw [ih2]

theorem rr_go_outside_id (sp ep : String → Bool) (cb : List String) (rs : Bool)
    {post : List String} (hpost : ∀ l ∈ post, sp l = false) :
    rr_go sp ep cb rs false post = post := by
  have h := rr_go_outside_append sp ep cb rs [] hpost
  simpa [rr_go_nil] using h

theorem rr_go_inside_skip (sp ep : String → Bool) (cb : List String) (rs : Bool)
    {mid : List String} (xs : List String) (hmid : ∀ l ∈ mid, ep l = false) :
    rr_go sp ep cb rs true (mid ++ xs) = rr_go sp ep cb rs true xs := by
  induction mid with
  | nil => rfl
  | cons m ms ih =>
    have hm : ep m = false := hmid m (List.mem_cons_self m ms)
    simp only [List.cons_append, rr_go, hm]
    simp only [Bool.false_eq_true, if_false]
    exact ih fun l hl => hmid l (List.mem_cons_of_mem m hl)

theorem rr_go_inside_drop (sp ep : String → Bool) (cb : List String) (rs : Bool)
    {mid : List String} (hmid : ∀ l ∈ mid, ep l = false) :
    rr_go sp ep cb rs true mid = [] := by
  have h := rr_go_inside_skip sp ep cb rs [] hmid
  simpa [rr_go_nil] using h

theorem rr_go_enter (sp ep : String → Bool) (cb : List String) (rs : Bool)
    {s : String} (xs : List String) (hs : sp s = true) :
    rr_go sp ep cb rs false (s :: xs)
      = (if rs then [] else [s]) ++ rr_go sp ep cb rs true xs := by
  simp only [rr_go, hs, if_true]

theorem rr_go_exit (sp ep : String → Bool) (cb : List String) (rs : Bool)
    {e : String} (xs : List String) (he : ep e = true) :
    rr_go sp ep cb rs true (e :: xs) = cb ++ e :: rr_go sp ep cb rs false xs := by
  simp only [rr_go, he, if_true]

/-- Claim C1: for every list of input lines, start pattern, end pattern,
content generator and `replace_start` flag, when some line matches the
start pattern and a later line matches the end pattern, `replace_region`
outputs all lines before the start line (including the start line itself
iff `replace_start` is false), then the generator's lines, then the
end-delimiter line unchanged, with every line outside the region copied
forward unchanged; and it returns true iff the new line list differs from
the original. -/
theorem replace_region_single_region_spec
    (region_start region_end : String → Bool) (callback : List String)
    (replace_start : Bool) (pre mid post : List String) (s e : String)
    (hpre : ∀ l ∈ pre, region_start l = false)
    (hs : region_start s = true)
    (hmid : ∀ l ∈ mid, region_end l = false)
    (he : region_end e = true)
    (hpost : ∀ l ∈ post, region_start l = false) :
    (replace_region region_start region_end callback replace_start
        (pre ++ s :: (mid ++ e :: post))).1
      = pre ++ (if replace_start then [] else [s]) ++ callback ++ e :: post
    ∧ ((replace_region region_start region_end callback replace_start
        (pre ++ s :: (mid ++ e :: post))).2 = true
      ↔ pre ++ (if replace_start then [] else [s]) ++ callback ++ e :: post
          ≠ pre ++ s :: (mid ++ e :: post)) := by
  have h1 : rr_go region_start region_end callback replace_start false
      (pre ++ s :: (mid ++ e :: post))
      = pre ++ (if replace_start then [] else [s]) ++ callback ++ e :: post := by
    rw [rr_go_outside_append _ _ _ _ _ hpre,
        rr_go_enter _ _ _ _ _ hs,
        rr_go_inside_skip _ _ _ _ _ hmid,
        rr_go_exit _ _ _ _ _ he,
        rr_go_outside_id _ _ _ _ hpost]
    simp [List.append_assoc]
  refine ⟨h1, ?_⟩
  have h2 : (replace_region region_start region_end callback replace_start
      (pre ++ s :: (mid ++ e :: post))).2
      = decide ((pre ++ s :: (mid ++ e :: post))
          ≠ pre ++ (if replace_start then [] else [s]) ++ callback ++ e :: post) := by
    simp [replace_region, h1]
  rw [h2, decide_eq_true_eq]
  exact ne_comm

/-- Witness for C1: a concrete README-style replacement with the real
table-region patterns of `main`. -/
theorem replace_region_single_region_witness :
    (replace_region matchTableStart matchBlank ["fresh row\n"] true
        (["Intro text.\n"] ++ "name  | default | meaning\n"
          :: (["old row\n"] ++ "\n" :: ["Tail text.\n"]))).1
      = ["Intro text.\n"] ++ (if true then [] else ["name  | default | meaning\n"])
          ++ ["fresh row\n"] ++ "\n" :: ["Tail text.\n"]
    ∧ ((replace_region matchTableStart matchBlank ["fresh row\n"] true
        (["Intro text.\n"] ++ "name  | default | meaning\n"
          :: (["old row\n"] ++ "\n" :: ["Tail text.\n"]))).2 = true
      ↔ ["Intro text.\n"] ++ (if true then [] else ["name  | default | meaning\n"])
          ++ ["fresh row\n"] ++ "\n" :: ["Tail text.\n"]
          ≠ ["Intro text.\n"] ++ "name  | default | meaning\n"
              :: (["old row\n"] ++ "\n" :: ["Tail text.\n"])) :=
  replace_region_single_region_spec matchTableStart matchBlank ["fresh row\n"] true
    ["Intro text.\n"] ["old row\n"] ["Tail text.\n"]
    "name  | default | meaning\n" "\n"
    (by decide) (by decide) (by decide) (by decide) (by decide)

/-- Claim C2: when some line matches the start pattern but no later line
matches the end pattern, `replace_region` drops everything from the region
start to end of file (keeping the start line itself only when
`replace_start` is false) and never consumes the content generator: the
result is the same for every callback, so no replacement content is
inserted. -/
theorem replace_region_missing_end_spec
    (region_start region_end : String → Bool) (replace_start : Bool)
    (pre mid : List String) (s : String)
    (hpre : ∀ l ∈ pre, region_start l = false)
    (hs : region_start s = true)
    (hmid : ∀ l ∈ mid, region_end l = false) :
    (∀ callback, (replace_region region_start region_end callback replace_start
        (pre ++ s :: mid)).1 = pre ++ (if replace_start then [] else [s]))
    ∧ ∀ callback callback2,
        replace_region region_start region_end callback replace_start (pre ++ s :: mid)
          = replace_region region_start region_end callback2 replace_start (pre ++ s :: mid) := by
  have key : ∀ callback, rr_go region_start region_end callback replace_start false
      (pre ++ s :: mid) = pre ++ (if replace_start then [] else [s]) := by
    intro cb
    rw [rr_go_outside_append _ _ _ _ _ hpre,
        rr_go_enter _ _ _ _ _ hs,
        rr_go_inside_drop _ _ _ _ hmid]
    simp
  constructor
  · intro cb
    exact key cb
  · intro cb cb2
    simp [replace_region, key cb, key cb2]

/-- Witness for C2: a concrete registration-list region whose closing
`]);` line is missing; the tail is dropped and the callback is ignored. -/
theorem replace_region_missing_end_witness :
    (replace_region matchGroupStart matchGroupEnd ["        mymod::MY_LINT,\n"] false
        (["use std\n"] ++ "    reg.register_lint_group(\"clippy\", vec![\n"
          :: ["        old::OLD_LINT,\n"])).1
      = ["use std\n"]
          ++ (if false then [] else ["    reg.register_lint_group(\"clippy\", vec![\n"]) :=
  (replace_region_missing_end_spec matchGroupStart matchGroupEnd false
      ["use std\n"] ["        old::OLD_LINT,\n"]
      "    reg.register_lint_group(\"clippy\", vec![\n"
      (by decide) (by decide) (by decide)).1 ["        mymod::MY_LINT,\n"]

/-- Claim C3: the write-mode pipeline is idempotent.  Each of the three
region replacements of `main` maps its own output to itself: on a file of
the shape a first run produces (intact prefix, region content freshly
generated, end delimiter, intact tail, with the generated content
re-matching the start pattern the way the table header, the count line and
the kept `register_lint_group` line do), `replace_region` returns the same
lines and the change flag `false`, so the OR-aggregated `changed` of a
second run is false. -/
theorem replace_region_second_run_fixpoint
    (region_start region_end : String → Bool) (callback : List String)
    (replace_start : Bool) (pre post : List String) (s e : String)
    (hpre : ∀ l ∈ pre, region_start l = false)
    (he : region_end e = true)
    (hpost : ∀ l ∈ post, region_start l = false)
    (hcb : if replace_start then
        ∃ c ct, callback = c :: ct ∧ region_start c = true ∧ ∀ l ∈ ct, region_end l = false
      else region_start s = true ∧ ∀ l ∈ callback, region_end l = false) :
    replace_region region_start region_end callback replace_start
        (pre ++ (if replace_start then [] else [s]) ++ callback ++ e :: post)
      = (pre ++ (if replace_start then [] else [s]) ++ callback ++ e :: post, false) := by
  have key : rr_go region_start region_end callback replace_start false
      (pre ++ (if replace_start then [] else [s]) ++ callback ++ e :: post)
      = pre ++ (if replace_start then [] else [s]) ++ callback ++ e :: post := by
    cases replace_start with
    | true =>
      obtain ⟨c, ct, hc, hcs, hct⟩ : ∃ c ct, callback = c :: ct
          ∧ region_start c = true ∧ ∀ l ∈ ct, region_end l = false := by
        simpa using hcb
      subst hc
      have step : rr_go region_start region_end (c :: ct) true false
          (pre ++ (c :: (ct ++ e :: post)))
          = pre ++ (c :: (ct ++ e :: post)) := by
        rw [rr_go_outside_append _ _ _ _ _ hpre,
            rr_go_enter _ _ _ _ _ hcs,
            rr_go_inside_skip _ _ _ _ _ hct,
            rr_go_exit _ _ _ _ _ he,
            rr_go_outside_id _ _ _ _ hpost]
        simp
      simpa [List.append_assoc] using step
    | false =>
      obtain ⟨hss, hcball⟩ : region_start s = true ∧ ∀ l ∈ callback, region_end l = false := by
        simpa using hcb
      have step : rr_go region_start region_end callback false false
          (pre ++ (s :: (callback ++ e :: post)))
          = pre ++ (s :: (callback ++ e :: post)) := by
        rw [rr_go_outside_append _ _ _ _ _ hpre,
            rr_go_enter _ _ _ _ _ hss,
            rr_go_inside_skip _ _ _ _ _ hcball,
            rr_go_exit _ _ _ _ _ he,
            rr_go_outside_id _ _ _ _ hpost]
        simp
      simpa [List.append_assoc] using step
  have key2 := key
  simp only [List.append_assoc] at key2
  simp [replace_region, key2]

/-- Witness for C3: running the table replacement on the README shape the
first run produces (header re-matching the start pattern, rows, blank end
line) changes nothing and reports `false`. -/
theorem replace_region_second_run_fixpoint_witness :
    replace_region matchTableStart matchBlank
        ["name | default | meaning\n", "foo | warn    | d\n"] true
        (["Intro.\n"] ++ (if true then [] else ["unused\n"])
          ++ ["name | default | meaning\n", "foo | warn    | d\n"] ++ "\n" :: ["Tail.\n"])
      = (["Intro.\n"] ++ (if true then [] else ["unused\n"])
          ++ ["name | default | meaning\n", "foo | warn    | d\n"] ++ "\n" :: ["Tail.\n"],
        false) :=
  replace_region_second_run_fixpoint matchTableStart matchBlank
    ["name | default | meaning\n", "foo | warn    | d\n"] true
    ["Intro.\n"] ["Tail.\n"] "unused\n" "\n"
    (by decide) (by decide) (by decide)
    ⟨"name | default | meaning\n", ["foo | warn    | d\n"], rfl, by decide, by decide⟩

/-- Claim C4: in check mode `main` never writes: both files keep exactly
their original lines whatever the drift is, the three change flags are
still computed from the would-be replacements, and the returned status is
1 when any region would have changed and `None` (success) otherwise. -/
theorem main_check_mode_no_write (lints : List Lint) (tbl readme librs : List String)
    (h : gen_table lints = some tbl) :
    main_model false true true lints readme librs
      = some (readme, librs,
          if (replace_region matchTableStart matchBlank tbl true readme).2
              || (replace_region matchCountStart matchAny [countLine lints] true readme).2
              || (replace_region matchGroupStart matchGroupEnd (gen_group lints) false librs).2
            then some 1 else none) := by
  simp [main_model, h, replace_region_write]

/-- Witness for C4: a drifted README and registration list in check mode
are returned byte-for-byte unchanged together with exit status 1. -/
theorem main_check_mode_no_write_witness :
    main_model false true true [⟨"x", "foo", "warn", "d"⟩]
        ["name |\n", "old row\n", "\n", "There are 0 lints included in this crate:\n", "tail\n"]
        ["    reg.register_lint_group(\"clippy\", vec![\n", "        old::OLD,\n", "    ]);\n"]
      = some (["name |\n", "old row\n", "\n",
            "There are 0 lints included in this crate:\n", "tail\n"],
          ["    reg.register_lint_group(\"clippy\", vec![\n", "        old::OLD,\n", "    ]);\n"],
          some 1) := by
  have h := main_check_mode_no_write [⟨"x", "foo", "warn", "d"⟩]
    ["name | default | meaning\n", "----|---------|--\n", "foo | warn    | d\n"]
    ["name |\n", "old row\n", "\n", "There are 0 lints included in this crate:\n", "tail\n"]
    ["    reg.register_lint_group(\"clippy\", vec![\n", "        old::OLD,\n", "    ]);\n"]
    (by decide)
  exact h.trans (by decide)

/-- Claim C8: with the `src/lib.rs` marker absent, `main` returns `None`
after printing the error, leaving both files untouched; `sys.exit(None)`
then exits with status 0, i.e. success, unlike the check-drift path whose
return value 1 exits with status 1. -/
theorem main_missing_marker (print_only check : Bool) (lints : List Lint)
    (readme librs : List String) :
    main_model print_only check false lints readme librs = some (readme, librs, none)
    ∧ exitOf none = 0 ∧ exitOf (some 1) = 1 := by
  refine ⟨?_, rfl, rfl⟩
  simp [main_model]

/-- Claim C10: `gen_table` is partial exactly on the empty collection (the
width computation takes `max()` of an empty sequence and raises before any
line is produced), it yields a line list (a nonempty one) precisely for
nonempty record lists, while `gen_group` maps the empty list to the empty
sequence. -/
theorem gen_table_empty_partial :
    gen_table ([] : List Lint) = none
    ∧ (∀ lints : List Lint, lints ≠ [] → ∃ out, gen_table lints = some out ∧ out ≠ [])
    ∧ (∀ (lints : List Lint) (out : List String), gen_table lints = some out → lints ≠ [])
    ∧ gen_group ([] : List Lint) = [] := by
  refine ⟨rfl, ?_, ?_, rfl⟩
  · intro lints h
    obtain ⟨a, as, rfl⟩ := List.exists_cons_of_ne_nil h
    exact ⟨_, rfl, by simp⟩
  · intro lints out h hnil
    subst hnil
    exact Option.noConfusion h

/-- Witness for C10: on a one-record list the table generator does yield
lines. -/
theorem gen_table_empty_partial_witness :
    ∃ out, gen_table [⟨"m", "nm", "allow", "dd"⟩] = some out ∧ out ≠ [] :=
  gen_table_empty_partial.2.1 [⟨"m", "nm", "allow", "dd"⟩] (by decide)

/-- Counterexample to claim C5 as stated: on names of lengths 3 and 7 the
script pads the name, level and header fields on the right
(left-justified); the literally \"left-padded\" (right-justified)
rendering the claim describes differs from the actual output. -/
theorem gen_table_left_pad_counterexample :
    gen_table [⟨"m", "abc", "warn", "dd"⟩, ⟨"m", "longnam", "deny", "e"⟩]
      ≠ gen_table_claim_left_pad [⟨"m", "abc", "warn", "dd"⟩, ⟨"m", "longnam", "deny", "e"⟩] := by
  decide

/-- Claim C5 (amended): for every nonempty record list, `gen_table` emits
the header with the `name` label left-justified (padded on the right with
spaces) to the maximum name length followed by ` | default | meaning`,
then an underline of dashes of the name width, 7 and the maximum
description width joined by `-|-`, then exactly one row per record in
ascending lexicographic order of name, each row being the name
right-padded to the name width, ` | `, the level right-padded to width 7,
` | `, and the description. -/
theorem gen_table_spec (lints : List Lint) (h : lints ≠ []) :
    gen_table lints = some (
      (padr "name" ((lints.map fun l => l.name.length).max?.getD 0) ++ " | default | meaning\n")
      :: (dashes ((lints.map fun l => l.name.length).max?.getD 0) ++ "-|-" ++ dashes 7 ++ "-|-"
            ++ dashes ((lints.map fun l => l.desc.length).max?.getD 0) ++ "\n")
      :: (isort name_le lints).map fun l =>
           padr l.name ((lints.map fun l2 => l2.name.length).max?.getD 0) ++ " | "
             ++ padr l.level 7 ++ " | " ++ l.desc ++ "\n")
    ∧ (isort name_le lints).Perm lints
    ∧ (isort name_le lints).Pairwise fun a b => name_le a b = true := by
  refine ⟨?_, isort_perm name_le lints,
    pairwise_isort name_le_total (fun a b c h1 h2 => name_le_trans h1 h2) lints⟩
  obtain ⟨a, as, rfl⟩ := List.exists_cons_of_ne_nil h
  rfl

/-- Witness for C5 (amended): the concrete scenario record renders with
right-padding. -/
theorem gen_table_spec_witness :
    gen_table [⟨"x", "foo_bar", "warn", "does a thing\"s"⟩]
      = some ["name    | default | meaning\n",
              "--------|---------|---------------\n",
              "foo_bar | warn    | does a thing\"s\n"]
    ∧ (isort name_le [⟨"x", "foo_bar", "warn", "does a thing\"s"⟩]).Perm
        [⟨"x", "foo_bar", "warn", "does a thing\"s"⟩] := by
  have h := gen_table_spec [⟨"x", "foo_bar", "warn", "does a thing\"s"⟩] (by decide)
  exact ⟨h.1.trans (by decide), h.2.1⟩

theorem lint_le_module {a b : Lint} (hab : lint_le a b = true) :
    cmpStr a.module b.module ≠ .gt := by
  intro hgt
  have hg : cmpLint a b = .gt := by
    unfold cmpLint lintKey
    simp only [lexCmp]
    have h2 : lexCmp cmpChar a.module.data b.module.data = .gt := hgt
    rw [h2]
  unfold lint_le at hab
  rw [decide_eq_true_eq] at hab
  exact hab hg

/-- Claim C6: `gen_group` emits exactly one line per record, in ascending
order of the full `(module, name, level, description)` tuple with the
module as primary key — in particular the module field is nondecreasing
along the output regardless of the names — and each line is eight spaces,
the module, `::`, the upper-cased name and a trailing comma. -/
theorem gen_group_spec (lints : List Lint) :
    gen_group lints = (isort lint_le lints).map (fun l =>
        "        " ++ l.module ++ "::" ++ pyUpper l.name ++ ",\n")
    ∧ (gen_group lints).length = lints.length
    ∧ (isort lint_le lints).Perm lints
    ∧ (isort lint_le lints).Pairwise (fun a b => lint_le a b = true)
    ∧ (isort lint_le lints).Pairwise (fun a b => cmpStr a.module b.module ≠ .gt) := by
  have hperm := isort_perm lint_le lints
  have hpw := pairwise_isort lint_le_total (fun a b c h1 h2 => lint_le_trans h1 h2) lints
  refine ⟨rfl, ?_, hperm, hpw, hpw.imp fun hab => lint_le_module hab⟩
  simp [gen_group, hperm.length_eq]

/-! Behaviour of the backslash-newline removal and of the escaped-quote
replacement on structured descriptions. -/

theorem nlSubGo_nil (b : Bool) : nlSubGo b [] = [] := by
  cases b <;> rfl

theorem nlSubGo_two (skip : Bool) (c r : Char) (rs : List Char) :
    nlSubGo skip (c :: r :: rs) =
      if c = '\\' ∧ r = '\n' then nlSubGo true rs
      else if skip && isPySpace c then nlSubGo true (r :: rs)
      else c :: nlSubGo false (r :: rs) := by
  by_cases hc : c = '\\' <;> by_cases hr : r = '\n'
  · subst hc; subst hr; rw [nlSubGo.eq_def]; simp
  · rw [nlSubGo.eq_def]; simp [hc, hr]
  · rw [nlSubGo.eq_def]; simp [hc, hr]
  · rw [nlSubGo.eq_def]; simp [hc, hr]

theorem nlSubGo_one (skip : Bool) (c : Char) :
    nlSubGo skip [c] = if skip && isPySpace c then [] else [c] := by
  rw [nlSubGo.eq_def]
  split
  · simp_all
  · rename_i h
    simp at h
  · rename_i h1 h2
    obtain ⟨rfl, rfl⟩ := h2
    simp [nlSubGo_nil]

theorem nlSubGo_not_bs (skip : Bool) (c : Char) (rest : List Char) (hc : c ≠ '\\') :
    nlSubGo skip (c :: rest)
      = if skip && isPySpace c then nlSubGo true rest else c :: nlSubGo false rest := by
  cases rest with
  | nil => rw [nlSubGo_one]; simp [nlSubGo_nil]
  | cons r rs => rw [nlSubGo_two, if_neg (fun hand => hc hand.1)]

theorem nlSubGo_bs_nl (skip : Bool) (rest : List Char) :
    nlSubGo skip ('\\' :: '\n' :: rest) = nlSubGo true rest := by
  rw [nlSubGo_two, if_pos ⟨rfl, rfl⟩]

theorem nlSubGo_no_newline (cs : List Char) (h : '\n' ∉ cs) : nlSubGo false cs = cs := by
  induction cs with
  | nil => rfl
  | cons c rest ih =>
    have hrest : '\n' ∉ rest := fun hm => h (List.mem_cons_of_mem _ hm)
    cases rest with
    | nil => rw [nlSubGo_one]; simp
    | cons r rs =>
      have hr : r ≠ '\n' := by
        intro heq
        exact h (List.mem_cons_of_mem _ (heq ▸ List.mem_cons_self r rs))
      rw [nlSubGo_two, if_neg (fun hand => hr hand.2)]
      simp only [Bool.false_and, Bool.false_eq_true, if_false]
      rw [ih hrest]

theorem nlSubGo_front_clean (u w : List Char) (hu : ∀ x ∈ u, x ≠ '\\') :
    nlSubGo false (u ++ w) = u ++ nlSubGo false w := by
  induction u with
  | nil => rfl
  | cons c cs ih =>
    rw [List.cons_append, nlSubGo_not_bs false c _ (hu c (List.mem_cons_self c cs))]
    simp only [Bool.false_and, Bool.false_eq_true, if_false]
    rw [ih fun x hx => hu x (List.mem_cons_of_mem c hx)]
    simp

theorem nlSubGo_skip_spaces (ws v : List Char) (hws : ∀ x ∈ ws, isPySpace x = true) :
    nlSubGo true (ws ++ v) = nlSubGo true v := by
  induction ws with
  | nil => rfl
  | cons c cs ih =>
    have hc : isPySpace c = true := hws c (List.mem_cons_self c cs)
    have hcbs : c ≠ '\\' := by
      intro heq
      subst heq
      exact absurd hc (by decide)
    rw [List.cons_append, nlSubGo_not_bs true c _ hcbs]
    simp only [Bool.true_and, hc, if_true]
    exact ih fun x hx => hws x (List.mem_cons_of_mem c hx)

theorem nlSubGo_skip_end (v : List Char)
    (hv : v = [] ∨ ∃ c t, v = c :: t ∧ isPySpace c = false) :
    nlSubGo true v = nlSubGo false v := by
  rcases hv with rfl | ⟨c, t, rfl, hsp⟩
  · rfl
  · cases t with
    | nil => rw [nlSubGo_one, nlSubGo_one]; simp [hsp]
    | cons r rs =>
      rw [nlSubGo_two, nlSubGo_two]
      by_cases hand : c = '\\' ∧ r = '\n'
      · rw [if_pos hand, if_pos hand]
      · rw [if_neg hand, if_neg hand]
        simp [hsp]

theorem nl_escape_sub_continuation (u ws v : List Char)
    (hu : ∀ x ∈ u, x ≠ '\\')
    (hws : ∀ x ∈ ws, isPySpace x = true)
    (hv : v = [] ∨ ∃ c t, v = c :: t ∧ isPySpace c = false)
    (hvnl : '\n' ∉ v) :
    nl_escape_sub (u ++ '\\' :: '\n' :: (ws ++ v)) = u ++ v := by
  unfold nl_escape_sub
  rw [nlSubGo_front_clean u _ hu, nlSubGo_bs_nl, nlSubGo_skip_spaces ws v hws,
      nlSubGo_skip_end v hv, nlSubGo_no_newline v hvnl]

theorem replaceEscQuote_nil : replaceEscQuote [] = [] := rfl

theorem replaceEscQuote_two (c r : Char) (rs : List Char) :
    replaceEscQuote (c :: r :: rs) =
      if c = '\\' ∧ r = '"' then '"' :: replaceEscQuote rs
      else c :: replaceEscQuote (r :: rs) := by
  by_cases hc : c = '\\' <;> by_cases hr : r = '"'
  · subst hc; subst hr; rw [replaceEscQuote.eq_def]; simp
  · rw [replaceEscQuote.eq_def]; simp [hc, hr]
  · rw [replaceEscQuote.eq_def]; simp [hc, hr]
  · rw [replaceEscQuote.eq_def]; simp [hc, hr]

theorem replaceEscQuote_one (c : Char) : replaceEscQuote [c] = [c] := by
  rw [replaceEscQuote.eq_def]
  split <;> simp_all [replaceEscQuote_nil]

theorem replaceEscQuote_not_bs (c : Char) (rest : List Char) (hc : c ≠ '\\') :
    replaceEscQuote (c :: rest) = c :: replaceEscQuote rest := by
  cases rest with
  | nil => rw [replaceEscQuote_one, replaceEscQuote_nil]
  | cons r rs => rw [replaceEscQuote_two, if_neg (fun hand => hc hand.1)]

theorem replaceEscQuote_front_clean (p q : List Char) (hp : ∀ x ∈ p, x ≠ '\\') :
    replaceEscQuote (p ++ q) = p ++ replaceEscQuote q := by
  induction p with
  | nil => rfl
  | cons c cs ih =>
    rw [List.cons_append, replaceEscQuote_not_bs c _ (hp c (List.mem_cons_self c cs))]
    rw [ih fun x hx => hp x (List.mem_cons_of_mem c hx)]
    simp

theorem replaceEscQuote_esc (p q : List Char) (hp : ∀ x ∈ p, x ≠ '\\') :
    replaceEscQuote (p ++ '\\' :: '"' :: q) = p ++ '"' :: replaceEscQuote q := by
  rw [replaceEscQuote_front_clean p _ hp, replaceEscQuote_two, if_pos ⟨rfl, rfl⟩]

theorem replaceEscQuote_newline_free (l : List Char) (h : '\n' ∉ l) :
    '\n' ∉ replaceEscQuote l := by
  induction l with
  | nil => simp [replaceEscQuote_nil]
  | cons c rest ih =>
    have hc : c ≠ '\n' := by
      intro heq
      exact h (heq ▸ List.mem_cons_self c rest)
    have hrest : '\n' ∉ rest := fun hm => h (List.mem_cons_of_mem _ hm)
    cases rest with
    | nil =>
      rw [replaceEscQuote_one]
      intro hmem
      exact hc (List.mem_singleton.mp hmem).symm
    | cons r rs =>
      rw [replaceEscQuote_two]
      by_cases hand : c = '\\' ∧ r = '"'
      · rw [if_pos hand]
        intro hmem
        rcases List.mem_cons.mp hmem with hq | hm2
        · exact absurd hq.symm (by decide)
        · -- reduce to the tail rs via the IH at the list r :: rs
          have hout : replaceEscQuote (r :: rs) = r :: replaceEscQuote rs := by
            rw [hand.2, replaceEscQuote_not_bs '"' rs (by decide)]
          have := ih hrest
          rw [hout] at this
          exact this (List.mem_cons_of_mem r hm2)
      · rw [if_neg hand]
        intro hmem
        rcases List.mem_cons.mp hmem with hq | hm2
        · exact hc hq.symm
        · exact ih hrest hm2

/-- Claim C7: for every declaration text matched by the extraction
pattern, the collector builds the record by first removing every
backslash-newline-and-following-whitespace sequence from the description,
then replacing every escaped quote by a literal quote, lowercasing the
captured name and severity keyword, and deriving the module from the
source file's base name with the extension stripped; hence a
backslash-newline continuation joins into a single line with no embedded
newline, and an escaped quote renders as a literal quote. -/
theorem collect_processing_spec (fn : String) (m : RawMatch) (u ws v : List Char)
    (hdesc : m.desc = u ++ '\\' :: '\n' :: (ws ++ v))
    (hu : ∀ x ∈ u, x ≠ '\\')
    (hunl : '\n' ∉ u)
    (hws : ∀ x ∈ ws, isPySpace x = true)
    (hv : v = [] ∨ ∃ c t, v = c :: t ∧ isPySpace c = false)
    (hvnl : '\n' ∉ v) :
    mkLint fn m = ⟨moduleOf fn, pyLower m.name, pyLower (levelStr m.level),
        String.mk (replaceEscQuote (u ++ v))⟩
    ∧ '\n' ∉ replaceEscQuote (u ++ v)
    ∧ ∀ p q : List Char, (∀ x ∈ p, x ≠ '\\') →
        replaceEscQuote (p ++ '\\' :: '"' :: q) = p ++ '"' :: replaceEscQuote q := by
  have hsub : nl_escape_sub m.desc = u ++ v := by
    rw [hdesc]
    exact nl_escape_sub_continuation u ws v hu hws hv hvnl
  refine ⟨?_, ?_, fun p q hp => replaceEscQuote_esc p q hp⟩
  · unfold mkLint
    rw [hsub]
  · have huv : '\n' ∉ u ++ v := by
      intro hmem
      rcases List.mem_append.mp hmem with h1 | h2
      · exact hunl h1
      · exact hvnl h2
    exact replaceEscQuote_newline_free _ huv

/-- Witness for C7: a description split by a backslash-newline
continuation joins into one line, and an escaped quote becomes literal. -/
theorem collect_processing_spec_witness :
    mkLint "src/methods.rs" ⟨"FOO_BAR", .Warn, ("line one \\\n   tail").data⟩
      = ⟨"methods", "foo_bar", "warn", "line one tail"⟩
    ∧ replaceEscQuote (("say ").data ++ '\\' :: '"' :: ("hi").data)
        = ("say ").data ++ '"' :: replaceEscQuote (("hi").data) := by
  have h := collect_processing_spec "src/methods.rs"
    ⟨"FOO_BAR", .Warn, ("line one \\\n   tail").data⟩
    ("line one ").data ("   ").data ("tail").data
    (by decide) (by decide) (by decide) (by decide)
    (Or.inr ⟨'t', ("ail").data, by decide⟩) (by decide)
  exact ⟨h.1.trans (by decide), h.2.2 ("say ").data ("hi").data (by decide)⟩

/-- Claim C9: every record produced by the collector carries a level that
is one of exactly the four lowercase severity keywords; the invariant
holds for the whole collection after any run over any source tree. -/
theorem collect_level_invariant (files : List (String × List RawMatch))
    (l : Lint) (h : l ∈ collect_run files) :
    l.level = "forbid" ∨ l.level = "deny" ∨ l.level = "warn" ∨ l.level = "allow" := by
  suffices H : ∀ (fs : List (String × List RawMatch)) (acc : List Lint),
      (∀ x ∈ acc, x.level = "forbid" ∨ x.level = "deny" ∨ x.level = "warn"
        ∨ x.level = "allow") →
      ∀ x ∈ fs.foldl (fun acc f => collect acc f.1 f.2) acc,
        x.level = "forbid" ∨ x.level = "deny" ∨ x.level = "warn" ∨ x.level = "allow" by
    exact H files [] (by simp) l h
  intro fs
  induction fs with
  | nil =>
    intro acc hacc x hx
    exact hacc x hx
  | cons f fs ih =>
    intro acc hacc x hx
    refine ih _ ?_ x hx
    intro y hy
    have hy2 : y ∈ acc ∨ ∃ a ∈ f.2, mkLint f.1 a = y := by simpa [collect] using hy
    rcases hy2 with hy1 | ⟨m, _, rfl⟩
    · exact hacc y hy1
    · have hlv : (mkLint f.1 m).level = pyLower (levelStr m.level) := rfl
      rw [hlv]
      cases m.level with
      | Forbid => exact Or.inl (by decide)
      | Deny => exact Or.inr (Or.inl (by decide))
      | Warn => exact Or.inr (Or.inr (Or.inl (by decide)))
      | Allow => exact Or.inr (Or.inr (Or.inr (by decide)))

/-- Witness for C9: a concrete run over one file with one `Deny` match. -/
theorem collect_level_invariant_witness :
    (⟨"lib", "my_lint", "deny", "x"⟩ : Lint).level = "forbid"
    ∨ (⟨"lib", "my_lint", "deny", "x"⟩ : Lint).level = "deny"
    ∨ (⟨"lib", "my_lint", "deny", "x"⟩ : Lint).level = "warn"
    ∨ (⟨"lib", "my_lint", "deny", "x"⟩ : Lint).level = "allow" :=
  collect_level_invariant [("src/lib.rs", [⟨"MY_LINT", .Deny, ("x").data⟩])]
    ⟨"lib", "my_lint", "deny", "x"⟩ (by decide)
